import Mathlib

/-!
Verification of the notification-orchestration core of a Discord project-manager
bot, against a shallow embedding of its Python source.

Embedded components:
* `GitHubPollService.get_recently_merged_prs` (src/services/github_poll_service.py)
* `WebAppQueryService._get_cached` (src/services/webapp_query_service.py)
* `ConversationManager` (src/services/conversation_manager.py)
* `UserMappingService` (src/services/user_mapping_service.py)
* the merged-PR delivery pipeline in `poll_github_for_reviews`,
  `determine_review_recipient`, `send_code_review_dm`,
  `send_review_to_fallback` (src/bot.py) and
  `CodeReviewBuilder.create_review_embed` (src/services/code_review_builder.py).

Timestamps are modelled as integers (seconds); the `datetime.utcnow()` value of
a poll tick and the lookback in hours enter as explicit parameters, with
`cutoff = now - hours * 3600` standing for `utcnow() - timedelta(hours=hours)`.
Exceptions caught inside the Python code are modelled as `Option` results.
-/

namespace DiscordPM

/-- One pull request as seen by the poller when scanning
`repo.get_pulls(state='closed', sort='updated', direction='desc')`. -/
structure PRInfo where
  number : Nat
  merged : Bool
  merged_at : Int
  author : String
  deriving DecidableEq, Repr

/-- The dictionaries appended to `newly_merged` in
`GitHubPollService.get_recently_merged_prs`. -/
structure MergedPREvent where
  repo_name : String
  pr_number : Nat
  pr_author : String
  merged_at : Int
  deriving DecidableEq, Repr

/-- The `self.last_checked` dict: repo name to last processed PR number. -/
def WmMap : Type := List (String × Nat)

instance : DecidableEq WmMap := by unfold WmMap; infer_instance

/-- `self.last_checked.get(repo_name, 0)`. -/
def getWm (st : WmMap) (repo : String) : Nat :=
  ((List.lookup repo st).getD 0)

/-- `self.last_checked[repo_name] = n`. -/
def setWm (st : WmMap) (repo : String) (n : Nat) : WmMap :=
  (repo, n) :: st

/-- The body of the inner `for pr in list(closed_prs)[:10]` loop of
`get_recently_merged_prs`, for one repository, threading `self.last_checked`:
skip unmerged PRs, skip PRs merged before the cutoff, skip PRs at or below the
repo's current watermark, otherwise append an event and (since the number
exceeds the watermark) store it as the new watermark. -/
def scanRepoPRs (repo : String) (cutoff : Int) :
    List PRInfo → WmMap → List MergedPREvent × WmMap
  | [], st => ([], st)
  | pr :: rest, st =>
    if pr.merged = false then
      scanRepoPRs repo cutoff rest st
    else if pr.merged_at < cutoff then
      scanRepoPRs repo cutoff rest st
    else if pr.number ≤ getWm st repo then
      scanRepoPRs repo cutoff rest st
    else
      (⟨repo, pr.number, pr.author, pr.merged_at⟩ ::
        (scanRepoPRs repo cutoff rest
          (if getWm st repo < pr.number then setWm st repo pr.number else st)).1,
       (scanRepoPRs repo cutoff rest
          (if getWm st repo < pr.number then setWm st repo pr.number else st)).2)

/-- One repository inside the outer `for repo_name in self.repos_to_watch`
loop: a `none` fetch models the caught per-repository exception (logged,
`continue`); a `some prs` fetch scans the first ten results. -/
def pollRepo (repo : String) (cutoff : Int) (res : Option (List PRInfo))
    (st : WmMap) : List MergedPREvent × WmMap :=
  match res with
  | none => ([], st)
  | some prs => scanRepoPRs repo cutoff (prs.take 10) st

/-- The outer loop of `get_recently_merged_prs` over the watch list,
accumulating `newly_merged` in order. -/
def pollRepos (cutoff : Int) (fetch : String → Option (List PRInfo)) :
    List String → WmMap → List MergedPREvent × WmMap
  | [], st => ([], st)
  | repo :: rest, st =>
    let r1 := pollRepo repo cutoff (fetch repo) st
    let r2 := pollRepos cutoff fetch rest r1.2
    (r1.1 ++ r2.1, r2.2)

/-- The input of one call to `get_recently_merged_prs`: whether the GitHub
client is initialised, the current watch list, the wall clock, the lookback in
hours, and what the upstream fetch returns for each repository. -/
structure TickInput where
  ghInit : Bool
  repos : List String
  now : Int
  hours : Int
  fetch : String → Option (List PRInfo)

/-- `utcnow() - timedelta(hours=hours)`. -/
def TickInput.cutoff (t : TickInput) : Int := t.now - t.hours * 3600

/-- `GitHubPollService.get_recently_merged_prs`: returns `[]` when the GitHub
client is not initialised, otherwise scans every watched repository, mutating
`self.last_checked`. -/
def get_recently_merged_prs (t : TickInput) (st : WmMap) :
    List MergedPREvent × WmMap :=
  if t.ghInit = false then ([], st)
  else pollRepos t.cutoff t.fetch t.repos st

/-- A sequence of poll ticks over one service instance: the list of per-tick
returned event lists (the watermark map persists between ticks). -/
def pollTrace (st : WmMap) : List TickInput → List (List MergedPREvent)
  | [] => []
  | t :: ts =>
    let r := get_recently_merged_prs t st
    r.1 :: pollTrace r.2 ts

/-- The watermark map after a sequence of ticks. -/
def runTicks (st : WmMap) : List TickInput → WmMap
  | [] => st
  | t :: ts => runTicks (get_recently_merged_prs t st).2 ts

/-- Count of events for a given (repo, pr_number) pair. -/
def cntEv (r : String) (n : Nat) (evs : List MergedPREvent) : Nat :=
  evs.countP (fun ev => decide (ev.repo_name = r ∧ ev.pr_number = n))

/-- The empty `last_checked` map a fresh `GitHubPollService` instance starts
with. -/
def emptyWm : WmMap := []

/-- The `self.cache` dict of `WebAppQueryService`: logical key to
(value, fetch timestamp). -/
def Cache (V : Type) : Type := List (String × V × Int)

/-- `key in self.cache` / `self.cache[key]` read. -/
def cacheLookup {V : Type} (c : Cache V) (k : String) : Option (V × Int) :=
  List.lookup k c

/-- `self.cache[key] = (data, now)`. -/
def cacheInsert {V : Type} (c : Cache V) (k : String) (v : V) (ts : Int) :
    Cache V :=
  (k, v, ts) :: c

/-- Result of one `_get_cached` call: the returned value, the cache
afterwards, and whether `fetch_func` was invoked. -/
structure CacheResult (V : Type) where
  ret : Option V
  cache : Cache V
  fetched : Bool

/-- `WebAppQueryService._get_cached`, with the `time.time()` clock `now`
explicit and `fetch` the value `fetch_func()` would return (`none` models a
failed fetch: the `_fetch_*` helpers catch their exceptions and return
`None`). Returns the cached value when the entry is younger than `ttl`;
otherwise invokes the fetch and stores the result only on success. -/
def get_cached {V : Type} (ttl : Int) (now : Int) (key : String)
    (fetch : Option V) (c : Cache V) : CacheResult V :=
  match cacheLookup c key with
  | some (v, ts) =>
    if now - ts < ttl then ⟨some v, c, false⟩
    else
      match fetch with
      | some d => ⟨some d, cacheInsert c key d now, true⟩
      | none => ⟨none, c, true⟩
  | none =>
    match fetch with
    | some d => ⟨some d, cacheInsert c key d now, true⟩
    | none => ⟨none, c, true⟩

/-- One entry of a `ConversationRecord.messages` list. -/
structure Message where
  role : String
  content : String
  timestamp : String
  deriving DecidableEq, Repr

/-- `ConversationContext`: the four independently settable slots, all `None`
after `__init__`. -/
structure ConversationContext where
  current_project : Option String
  current_task : Option String
  current_user : Option String
  topic : Option String
  deriving DecidableEq, Repr

/-- `ConversationContext()`. -/
def defaultContext : ConversationContext := ⟨none, none, none, none⟩

/-- One value of the `self.conversations` dict. -/
structure ConversationRecord where
  messages : List Message
  context : ConversationContext
  last_updated : String
  deriving DecidableEq, Repr

/-- The `self.conversations` dict of `ConversationManager`. -/
def ConvStore : Type := List (String × ConversationRecord)

instance : DecidableEq ConvStore := by unfold ConvStore; infer_instance

/-- `user_id in self.conversations` / `self.conversations[user_id]` read. -/
def convLookup (st : ConvStore) (uid : String) : Option ConversationRecord :=
  List.lookup uid st

/-- `self.conversations[user_id] = cr`. -/
def convInsert (st : ConvStore) (uid : String) (cr : ConversationRecord) :
    ConvStore :=
  (uid, cr) :: st

/-- The empty store a manager starts with when no history file exists. -/
def emptyConv : ConvStore := []

/-- `ConversationManager._init_user_conversation`. -/
def init_user_conversation (st : ConvStore) (uid ts : String) : ConvStore :=
  convInsert st uid ⟨[], defaultContext, ts⟩

/-- Python's `l[-n:]` slice: for `n = 0` this is `l[0:]`, the whole list
(`-0 == 0`); for `n ≥ 1` it keeps the last `n` elements. -/
def pySliceLast {α : Type} (n : Nat) (l : List α) : List α :=
  if n = 0 then l else l.drop (l.length - n)

/-- `ConversationManager.add_message`: lazily initialise the record, append
the timestamped message, trim with `messages[-self.max_history * 2:]` when
the list exceeds `self.max_history * 2`, update `last_updated`, store. The
`datetime.utcnow().isoformat()` stamp enters as the explicit `ts`. -/
def add_message (m : Nat) (st : ConvStore) (uid role content ts : String) :
    ConvStore :=
  let st1 := if (convLookup st uid).isSome then st
             else init_user_conversation st uid ts
  let cr := (convLookup st1 uid).getD ⟨[], defaultContext, ts⟩
  let msgs1 := cr.messages ++ [⟨role, content, ts⟩]
  let msgs2 := if msgs1.length > m * 2 then pySliceLast (m * 2) msgs1 else msgs1
  convInsert st1 uid ⟨msgs2, cr.context, ts⟩

/-- `ConversationManager.get_history`: a pure read — the source body only
looks `user_id` up and returns `[]` when absent, never writing the store. -/
def get_history (st : ConvStore) (uid : String) : List Message :=
  match convLookup st uid with
  | none => []
  | some cr => cr.messages

/-- `ConversationManager.get_context`: when the user is absent this calls
`_init_user_conversation` and hence WRITES the store; it returns the
(possibly fresh) record's context together with the store afterwards. -/
def get_context (st : ConvStore) (uid ts : String) :
    ConversationContext × ConvStore :=
  match convLookup st uid with
  | none => (defaultContext, init_user_conversation st uid ts)
  | some cr => (cr.context, st)

/-- One `add_message` call of a call sequence. -/
structure AddCall where
  user_id : String
  role : String
  content : String
  ts : String
  deriving DecidableEq, Repr

/-- The `Message` an `AddCall` appends. -/
def mkMsg (c : AddCall) : Message := ⟨c.role, c.content, c.ts⟩

/-- Run a sequence of `add_message` calls. -/
def runAdds (m : Nat) (st : ConvStore) : List AddCall → ConvStore
  | [] => st
  | c :: cs => runAdds m (add_message m st c.user_id c.role c.content c.ts) cs

/-- The current message list of a user (empty when absent). -/
def curMsgs (st : ConvStore) (uid : String) : List Message :=
  ((convLookup st uid).map (fun cr => cr.messages)).getD []

/-- The last `n` elements of a list (all of it when shorter). -/
def lastN {α : Type} (n : Nat) (l : List α) : List α := l.drop (l.length - n)

/-- The `self.mappings` dict of `UserMappingService`: GitHub username to the
stored Discord-id string. -/
def Mappings : Type := List (String × String)

instance : DecidableEq Mappings := by unfold Mappings; infer_instance

/-- `self.mappings.get(github_username)`. -/
def mapLookup (ms : Mappings) (u : String) : Option String :=
  List.lookup u ms

/-- The empty mapping table (missing or unreadable mapping file). -/
def emptyMappings : Mappings := []

/-- Whether a character is an ASCII decimal digit. -/
def isAsciiDigit (c : Char) : Bool :=
  c == '0' || c == '1' || c == '2' || c == '3' || c == '4' ||
  c == '5' || c == '6' || c == '7' || c == '8' || c == '9'

/-- The value of an ASCII decimal digit. -/
def digitVal (c : Char) : Nat :=
  if c = '0' then 0 else if c = '1' then 1 else if c = '2' then 2
  else if c = '3' then 3 else if c = '4' then 4 else if c = '5' then 5
  else if c = '6' then 6 else if c = '7' then 7 else if c = '8' then 8 else 9

/-- The ASCII character of a decimal digit. -/
def digitChar : Nat → Char
  | 0 => '0' | 1 => '1' | 2 => '2' | 3 => '3' | 4 => '4'
  | 5 => '5' | 6 => '6' | 7 => '7' | 8 => '8' | _ => '9'

/-- Digits after the first one of a Python integer literal: digits with
single underscores allowed between digits, accumulating the value. -/
def parseAcc : List Char → Nat → Option Nat
  | [], acc => some acc
  | c :: rest, acc =>
    if c = '_' then
      match rest with
      | [] => none
      | c2 :: rest2 =>
        if isAsciiDigit c2 then parseAcc rest2 (acc * 10 + digitVal c2)
        else none
    else if isAsciiDigit c then parseAcc rest (acc * 10 + digitVal c)
    else none

/-- A nonempty run of decimal digits (Python `digitpart`), as a value. -/
def pyParseNatDigits : List Char → Option Nat
  | [] => none
  | c :: rest => if isAsciiDigit c then parseAcc rest (digitVal c) else none

/-- The body of Python `int(s)` after whitespace stripping: optional single
sign, then a digit run. -/
def pyIntCore (cs : List Char) : Option Int :=
  match cs with
  | [] => none
  | c :: rest =>
    if c = '+' then (pyParseNatDigits rest).map (fun n => (n : Int))
    else if c = '-' then (pyParseNatDigits rest).map (fun n => -(n : Int))
    else (pyParseNatDigits (c :: rest)).map (fun n => (n : Int))

/-- Strip whitespace from both ends of a character list. -/
def pyStrip (cs : List Char) : List Char :=
  ((cs.dropWhile Char.isWhitespace).reverse.dropWhile Char.isWhitespace).reverse

/-- Python `int(s)` for a string: surrounding whitespace, an optional sign
and a decimal digit run (single underscores allowed between digits);
`none` models the `ValueError` the source catches. -/
def pyInt (s : String) : Option Int := pyIntCore (pyStrip s.toList)

/-- The digit run of a natural number, most significant first; structural on
a fuel argument (`fuel ≥ n` suffices). -/
def natDecimalAux : Nat → Nat → List Char
  | 0, _ => []
  | fuel + 1, n =>
    if n = 0 then []
    else natDecimalAux fuel (n / 10) ++ [digitChar (n % 10)]

/-- Decimal rendering of a natural number. -/
def natDecimal (n : Nat) : List Char :=
  if n = 0 then ['0'] else natDecimalAux n n

/-- Python `str` on an int. -/
def pyStr (d : Int) : String :=
  if d < 0 then ⟨'-' :: natDecimal d.natAbs⟩ else ⟨natDecimal d.toNat⟩

/-- `UserMappingService.get_discord_id`: dict lookup, Python truthiness of
the stored string (a missing key and the empty string are falsy), then
`int(...)` with `ValueError` caught and mapped to `None`. -/
def get_discord_id (ms : Mappings) (u : String) : Option Int :=
  match mapLookup ms u with
  | some s => if s ≠ "" then pyInt s else none
  | none => none

/-- `UserMappingService.add_mapping`: stores `str(discord_user_id)` under the
(case-sensitive) username. -/
def add_mapping (ms : Mappings) (u : String) (d : Int) : Mappings :=
  (u, pyStr d) :: ms

/-- `UserMappingService.remove_mapping`: deletes the key when present. -/
def remove_mapping (ms : Mappings) (u : String) : Mappings :=
  ms.filter (fun p => p.1 != u)

/-- One mutation of the mapping table. -/
inductive MapOp where
  | add (u : String) (d : Int)
  | remove (u : String)
  deriving DecidableEq, Repr

/-- Run a sequence of mapping mutations. -/
def runMapOps (ms : Mappings) : List MapOp → Mappings
  | [] => ms
  | MapOp.add u d :: ops => runMapOps (add_mapping ms u d) ops
  | MapOp.remove u :: ops => runMapOps (remove_mapping ms u) ops

/-- The fields of `GitHubPRService.get_pr_data`'s result that recipient
resolution reads. -/
structure PRData where
  author : String
  repo_owner : String
  deriving DecidableEq, Repr

/-- `REVIEW_RECIPIENT_MODE` and `SPECIFIC_DISCORD_USER_ID` (config.py). -/
structure RecipientConfig where
  mode : String
  specificId : Option Int
  deriving DecidableEq, Repr

/-- Python truthiness of an `Optional[int]`: `None` and `0` are falsy. -/
def intTruthy : Option Int → Bool
  | none => false
  | some d => d != 0

/-- Python truthiness of an `Optional[str]`: `None` and `""` are falsy. -/
def strTruthy : Option String → Bool
  | none => false
  | some s => s != ""

/-- `determine_review_recipient` (bot.py): `specific` mode returns the
configured id when truthy; `author` / `owner` modes look the respective
GitHub username up in the mapping table; anything else resolves to `None`. -/
def determine_review_recipient (cfg : RecipientConfig) (ms : Mappings)
    (pr : PRData) : Option Int :=
  if cfg.mode = "specific" ∧ intTruthy cfg.specificId then cfg.specificId
  else if cfg.mode = "author" then get_discord_id ms pr.author
  else if cfg.mode = "owner" then get_discord_id ms pr.repo_owner
  else none

/-- How the direct-message attempt of `send_code_review_dm` resolves. -/
inductive DMOutcome where
  | success
  | forbidden
  | otherError
  deriving DecidableEq, Repr

/-- One observable step of the per-PR delivery pipeline. -/
inductive Step where
  | genReview
  | secScan
  | resolveRecipient
  | dmSend (uid : Int)
  | fallbackSend
  deriving DecidableEq, Repr

/-- `send_code_review_dm` (bot.py): the DM attempt, then
`send_review_to_fallback` on `discord.Forbidden` (with the user mention) or
on any other error (without it); nothing further on success. -/
def dmBranch (uid : Int) (outcome : DMOutcome) : List Step :=
  Step.dmSend uid ::
    (match outcome with
     | DMOutcome.success => []
     | DMOutcome.forbidden => [Step.fallbackSend]
     | DMOutcome.otherError => [Step.fallbackSend])

/-- The per-PR body of the `poll_github_for_reviews` loop (bot.py 386-414)
as the sequence of pipeline steps it performs: a `none` PR-data fetch is
logged and the PR skipped; otherwise generate the AI review, run the
security scan only when the review is truthy, resolve the recipient, then DM
a truthy recipient or send straight to the fallback channel. `review` is
what `llm_service.review_code` returns (it catches its own exceptions and
returns `None` on failure, as does `security_scan`). -/
def processPR (cfg : RecipientConfig) (ms : Mappings)
    (prFetch : Option PRData) (review : Option String) (outcome : DMOutcome) :
    List Step :=
  match prFetch with
  | none => []
  | some pr =>
    Step.genReview ::
      ((if strTruthy review then [Step.secScan] else []) ++
        Step.resolveRecipient ::
          (if intTruthy (determine_review_recipient cfg ms pr)
           then dmBranch ((determine_review_recipient cfg ms pr).getD 0) outcome
           else [Step.fallbackSend]))

/-- The "AI Code Review" field of `CodeReviewBuilder.create_review_embed`:
the (possibly truncated) review when truthy, else the failure placeholder. -/
def reviewFieldValue (review : Option String) : String :=
  if strTruthy review then
    let s := review.getD ""
    if s.length > 1024 then s.take 1021 ++ "..." else s
  else "⚠️ Review generation failed"

@[simp] theorem getWm_setWm_same (st : WmMap) (repo : String) (n : Nat) :
    getWm (setWm st repo n) repo = n := by
  simp [getWm, setWm, List.lookup]

@[simp] theorem getWm_setWm_other (st : WmMap) (repo r : String) (n : Nat)
    (h : r ≠ repo) : getWm (setWm st repo n) r = getWm st r := by
  simp [getWm, setWm, List.lookup, beq_eq_false_iff_ne.mpr h]

@[simp] theorem cntEv_nil (r : String) (n : Nat) : cntEv r n [] = 0 := rfl

theorem cntEv_cons (r : String) (n : Nat) (ev : MergedPREvent)
    (evs : List MergedPREvent) :
    cntEv r n (ev :: evs) =
      cntEv r n evs + (if ev.repo_name = r ∧ ev.pr_number = n then 1 else 0) := by
  simp [cntEv, List.countP_cons]

theorem cntEv_append (r : String) (n : Nat) (a b : List MergedPREvent) :
    cntEv r n (a ++ b) = cntEv r n a + cntEv r n b := by
  simp [cntEv, List.countP_append]

theorem scan_wm_mono (repo : String) (cutoff : Int) (prs : List PRInfo) :
    ∀ (st : WmMap) (r : String),
      getWm st r ≤ getWm (scanRepoPRs repo cutoff prs st).2 r := by
  induction prs with
  | nil => intro st r; simp [scanRepoPRs]
  | cons pr rest ih =>
    intro st r
    simp only [scanRepoPRs]
    split
    · exact ih st r
    · split
      · exact ih st r
      · split
        · exact ih st r
        · rename_i hle
          have hlt : getWm st repo < pr.number := by omega
          simp only [if_pos hlt]
          refine le_trans ?_ (ih _ r)
          by_cases hr : r = repo
          · subst hr; simp; omega
          · simp [getWm_setWm_other _ _ _ _ hr]

theorem scan_count (repo : String) (cutoff : Int) (prs : List PRInfo) :
    ∀ (st : WmMap) (r : String) (n : Nat),
      cntEv r n (scanRepoPRs repo cutoff prs st).1 ≤ 1 ∧
      (1 ≤ cntEv r n (scanRepoPRs repo cutoff prs st).1 →
        r = repo ∧ getWm st r < n ∧
          n ≤ getWm (scanRepoPRs repo cutoff prs st).2 r) := by
  induction prs with
  | nil => intro st r n; simp [scanRepoPRs]
  | cons pr rest ih =>
    intro st r n
    simp only [scanRepoPRs]
    split
    · exact ih st r n
    · split
      · exact ih st r n
      · split
        · exact ih st r n
        · rename_i hle
          have hlt : getWm st repo < pr.number := by omega
          simp only [if_pos hlt]
          have hwm : getWm (setWm st repo pr.number) repo = pr.number := by simp
          obtain ⟨ih1, ih2⟩ := ih (setWm st repo pr.number) r n
          rw [cntEv_cons]
          by_cases hmatch : repo = r ∧ pr.number = n
          · obtain ⟨hr, hn⟩ := hmatch
            subst hr; subst hn
            have hz : cntEv repo pr.number
                (scanRepoPRs repo cutoff rest (setWm st repo pr.number)).1 = 0 := by
              by_contra hnz
              have := ih2 (by omega)
              rw [hwm] at this
              omega
            refine ⟨by simp [hz], fun _ => ⟨rfl, hlt, ?_⟩⟩
            have := scan_wm_mono repo cutoff rest (setWm st repo pr.number) repo
            rw [hwm] at this
            exact this
          · simp only [if_neg hmatch, Nat.add_zero]
            refine ⟨ih1, fun h1 => ?_⟩
            obtain ⟨hr, hlt2, hub⟩ := ih2 h1
            subst hr
            rw [hwm] at hlt2
            exact ⟨rfl, by omega, hub⟩

theorem pollRepo_wm_mono (repo : String) (cutoff : Int)
    (res : Option (List PRInfo)) (st : WmMap) (r : String) :
    getWm st r ≤ getWm (pollRepo repo cutoff res st).2 r := by
  cases res with
  | none => simp [pollRepo]
  | some prs => exact scan_wm_mono repo cutoff (prs.take 10) st r

theorem pollRepo_count (repo : String) (cutoff : Int)
    (res : Option (List PRInfo)) (st : WmMap) (r : String) (n : Nat) :
    cntEv r n (pollRepo repo cutoff res st).1 ≤ 1 ∧
    (1 ≤ cntEv r n (pollRepo repo cutoff res st).1 →
      getWm st r < n ∧ n ≤ getWm (pollRepo repo cutoff res st).2 r) := by
  cases res with
  | none => simp [pollRepo]
  | some prs =>
    obtain ⟨h1, h2⟩ := scan_count repo cutoff (prs.take 10) st r n
    exact ⟨h1, fun h => (h2 h).2⟩

theorem pollRepos_wm_mono (cutoff : Int) (fetch : String → Option (List PRInfo))
    (repos : List String) :
    ∀ (st : WmMap) (r : String),
      getWm st r ≤ getWm (pollRepos cutoff fetch repos st).2 r := by
  induction repos with
  | nil => intro st r; simp [pollRepos]
  | cons repo rest ih =>
    intro st r
    simp only [pollRepos]
    exact le_trans (pollRepo_wm_mono repo cutoff (fetch repo) st r) (ih _ r)

theorem pollRepos_count (cutoff : Int) (fetch : String → Option (List PRInfo))
    (repos : List String) :
    ∀ (st : WmMap) (r : String) (n : Nat),
      cntEv r n (pollRepos cutoff fetch repos st).1 ≤ 1 ∧
      (1 ≤ cntEv r n (pollRepos cutoff fetch repos st).1 →
        getWm st r < n ∧ n ≤ getWm (pollRepos cutoff fetch repos st).2 r) := by
  induction repos with
  | nil => intro st r n; simp [pollRepos]
  | cons repo rest ih =>
    intro st r n
    simp only [pollRepos, cntEv_append]
    obtain ⟨h1, h2⟩ := pollRepo_count repo cutoff (fetch repo) st r n
    obtain ⟨h1', h2'⟩ := ih (pollRepo repo cutoff (fetch repo) st).2 r n
    by_cases hc : 1 ≤ cntEv r n (pollRepo repo cutoff (fetch repo) st).1
    · obtain ⟨ha, hb⟩ := h2 hc
      have hz : cntEv r n
          (pollRepos cutoff fetch rest (pollRepo repo cutoff (fetch repo) st).2).1 = 0 := by
        by_contra hnz
        have := (h2' (by omega)).1
        omega
      refine ⟨by omega, fun _ => ⟨ha, ?_⟩⟩
      exact le_trans hb (pollRepos_wm_mono cutoff fetch rest _ r)
    · have hz : cntEv r n (pollRepo repo cutoff (fetch repo) st).1 = 0 := by omega
      refine ⟨by omega, fun h => ?_⟩
      obtain ⟨ha, hb⟩ := h2' (by omega)
      exact ⟨lt_of_le_of_lt (pollRepo_wm_mono repo cutoff (fetch repo) st r) ha, hb⟩

theorem tick_wm_mono (t : TickInput) (st : WmMap) (r : String) :
    getWm st r ≤ getWm (get_recently_merged_prs t st).2 r := by
  unfold get_recently_merged_prs
  split
  · simp
  · exact pollRepos_wm_mono t.cutoff t.fetch t.repos st r

theorem tick_count (t : TickInput) (st : WmMap) (r : String) (n : Nat) :
    cntEv r n (get_recently_merged_prs t st).1 ≤ 1 ∧
    (1 ≤ cntEv r n (get_recently_merged_prs t st).1 →
      getWm st r < n ∧ n ≤ getWm (get_recently_merged_prs t st).2 r) := by
  unfold get_recently_merged_prs
  split
  · simp
  · exact pollRepos_count t.cutoff t.fetch t.repos st r n

theorem runTicks_wm_mono (ticks : List TickInput) :
    ∀ (st : WmMap) (r : String), getWm st r ≤ getWm (runTicks st ticks) r := by
  induction ticks with
  | nil => intro st r; simp [runTicks]
  | cons t ts ih =>
    intro st r
    simp only [runTicks]
    exact le_trans (tick_wm_mono t st r) (ih _ r)

theorem trace_count (ticks : List TickInput) :
    ∀ (st : WmMap) (r : String) (n : Nat),
      cntEv r n (pollTrace st ticks).flatten ≤ 1 ∧
      (1 ≤ cntEv r n (pollTrace st ticks).flatten →
        getWm st r < n ∧ n ≤ getWm (runTicks st ticks) r) := by
  induction ticks with
  | nil => intro st r n; simp [pollTrace]
  | cons t ts ih =>
    intro st r n
    simp only [pollTrace, runTicks, List.flatten, cntEv_append]
    obtain ⟨h1, h2⟩ := tick_count t st r n
    obtain ⟨h1', h2'⟩ := ih (get_recently_merged_prs t st).2 r n
    by_cases hc : 1 ≤ cntEv r n (get_recently_merged_prs t st).1
    · obtain ⟨ha, hb⟩ := h2 hc
      have hz : cntEv r n (pollTrace (get_recently_merged_prs t st).2 ts).flatten = 0 := by
        by_contra hnz
        have := (h2' (by omega)).1
        omega
      refine ⟨by omega, fun _ => ⟨ha, ?_⟩⟩
      exact le_trans hb (runTicks_wm_mono ts _ r)
    · have hz : cntEv r n (get_recently_merged_prs t st).1 = 0 := by omega
      refine ⟨by omega, fun h => ?_⟩
      obtain ⟨ha, hb⟩ := h2' (by omega)
      exact ⟨lt_of_le_of_lt (tick_wm_mono t st r) ha, hb⟩

theorem getLast?_getD_cons {α : Type} (l : List α) :
    ∀ (x a : α), ((x :: l).getLast?).getD a = (l.getLast?).getD x := by
  induction l with
  | nil => intro x a; rfl
  | cons y l' ih =>
    intro x a
    rw [List.getLast?_cons_cons, ih y a, ih y x]

theorem scan_sound (repo : String) (cutoff : Int) (prs : List PRInfo) :
    ∀ (st : WmMap), ∀ ev ∈ (scanRepoPRs repo cutoff prs st).1,
      ev.repo_name = repo ∧ getWm st repo < ev.pr_number ∧
      ∃ pr ∈ prs, pr.number = ev.pr_number ∧ pr.author = ev.pr_author ∧
        pr.merged_at = ev.merged_at ∧ pr.merged = true ∧
        ¬(pr.merged_at < cutoff) := by
  induction prs with
  | nil => intro st ev h; simp [scanRepoPRs] at h
  | cons pr rest ih =>
    intro st ev hev
    simp only [scanRepoPRs] at hev
    split at hev
    · obtain ⟨h1, h2, p, hp, hps⟩ := ih st ev hev
      exact ⟨h1, h2, p, List.mem_cons_of_mem _ hp, hps⟩
    · split at hev
      · obtain ⟨h1, h2, p, hp, hps⟩ := ih st ev hev
        exact ⟨h1, h2, p, List.mem_cons_of_mem _ hp, hps⟩
      · split at hev
        · obtain ⟨h1, h2, p, hp, hps⟩ := ih st ev hev
          exact ⟨h1, h2, p, List.mem_cons_of_mem _ hp, hps⟩
        · rename_i hm ht hle
          have hmerged : pr.merged = true := by
            cases hpm : pr.merged with
            | false => exact absurd hpm hm
            | true => rfl
          have hlt : getWm st repo < pr.number := by omega
          rw [if_pos hlt] at hev
          rcases List.mem_cons.mp hev with hhead | htail
          · subst hhead
            exact ⟨rfl, hlt, pr, List.mem_cons_self _ _, rfl, rfl, rfl, hmerged, ht⟩
          · obtain ⟨h1, h2, p, hp, hps⟩ := ih (setWm st repo pr.number) ev htail
            rw [getWm_setWm_same] at h2
            exact ⟨h1, by omega, p, List.mem_cons_of_mem _ hp, hps⟩

theorem scan_pairwise (repo : String) (cutoff : Int) (prs : List PRInfo) :
    ∀ (st : WmMap),
      ((scanRepoPRs repo cutoff prs st).1).Pairwise
        (fun a b => a.pr_number < b.pr_number) := by
  induction prs with
  | nil => intro st; simp [scanRepoPRs]
  | cons pr rest ih =>
    intro st
    simp only [scanRepoPRs]
    split
    · exact ih st
    · split
      · exact ih st
      · split
        · exact ih st
        · rename_i hm ht hle
          have hlt : getWm st repo < pr.number := by omega
          rw [if_pos hlt]
          refine List.Pairwise.cons (fun b hb => ?_) (ih (setWm st repo pr.number))
          have := (scan_sound repo cutoff rest (setWm st repo pr.number) b hb).2.1
          rw [getWm_setWm_same] at this
          exact this

theorem scan_last (repo : String) (cutoff : Int) (prs : List PRInfo) :
    ∀ (st : WmMap),
      getWm (scanRepoPRs repo cutoff prs st).2 repo =
        (((scanRepoPRs repo cutoff prs st).1.map
            (fun ev => ev.pr_number)).getLast?).getD (getWm st repo) := by
  induction prs with
  | nil => intro st; simp [scanRepoPRs]
  | cons pr rest ih =>
    intro st
    simp only [scanRepoPRs]
    split
    · exact ih st
    · split
      · exact ih st
      · split
        · exact ih st
        · rename_i hm ht hle
          have hlt : getWm st repo < pr.number := by omega
          rw [if_pos hlt]
          simp only [List.map_cons]
          rw [getLast?_getD_cons, ih (setWm st repo pr.number), getWm_setWm_same]

theorem scan_frame (repo : String) (cutoff : Int) (prs : List PRInfo) :
    ∀ (st : WmMap) (r : String), r ≠ repo →
      getWm (scanRepoPRs repo cutoff prs st).2 r = getWm st r := by
  induction prs with
  | nil => intro st r _; simp [scanRepoPRs]
  | cons pr rest ih =>
    intro st r hr
    simp only [scanRepoPRs]
    split
    · exact ih st r hr
    · split
      · exact ih st r hr
      · split
        · exact ih st r hr
        · rename_i hm ht hle
          have hlt : getWm st repo < pr.number := by omega
          rw [if_pos hlt]
          rw [ih (setWm st repo pr.number) r hr, getWm_setWm_other _ _ _ _ hr]

theorem pollRepos_time_sound (cutoff : Int)
    (fetch : String → Option (List PRInfo)) (repos : List String) :
    ∀ (st : WmMap), ∀ ev ∈ (pollRepos cutoff fetch repos st).1,
      ¬(ev.merged_at < cutoff) := by
  induction repos with
  | nil => intro st ev h; simp [pollRepos] at h
  | cons repo rest ih =>
    intro st ev hev
    simp only [pollRepos, List.mem_append] at hev
    rcases hev with h | h
    · unfold pollRepo at h
      cases hres : fetch repo with
      | none => rw [hres] at h; simp at h
      | some prs =>
        rw [hres] at h
        obtain ⟨_, _, p, _, _, _, hma, _, hcut⟩ :=
          scan_sound repo cutoff (prs.take 10) st ev h
        rw [hma] at hcut
        exact hcut
    · exact ih _ ev h

/-- C1: over any sequence of calls to `get_recently_merged_prs` on one
instance (whose `last_checked` starts empty), and for every repository name
and PR number, an event for that (repo, pr_number) pair appears at most once
in the concatenation of all returned lists — hence in at most one tick and at
most once within that tick — regardless of what the upstream fetch returns in
each tick. -/
theorem C1_pair_emitted_at_most_once (ticks : List TickInput) (r : String)
    (n : Nat) : cntEv r n (pollTrace emptyWm ticks).flatten ≤ 1 :=
  (trace_count ticks emptyWm r n).1

/-- C2: for every repository, the watermark in `last_checked` never decreases
across any sequence of poll ticks, from any starting map (so in particular
between any two points of a tick sequence), whatever order each tick's fetched
results list PR numbers in. -/
theorem C2_watermark_never_decreases (st : WmMap) (ticks : List TickInput)
    (r : String) : getWm st r ≤ getWm (runTicks st ticks) r :=
  runTicks_wm_mono ticks st r

/-- C3 counterexample: with watermark 40 for "acme/widgets" and a tick whose
fetched results list PR #42 before PR #41 (both merged, both within the
window, both above the start-of-tick watermark 40), the code emits only the
event for #42: the loop stores 42 as the watermark as soon as #42 is
processed, so the later-listed #41 is skipped — refuting the claim that every
scanned PR above the start-of-tick watermark is emitted, and that the
watermark is computed from the whole tick's results rather than merged
incrementally while scanning. -/
theorem C3_counterexample_out_of_order_pr_skipped :
    (⟨41, true, 100, "bob"⟩ : PRInfo) ∈
      (((fun r => if r = "acme/widgets" then
          some [⟨42, true, 100, "alice"⟩, ⟨41, true, 100, "bob"⟩]
        else none) "acme/widgets" : Option (List PRInfo)).getD []).take 10 ∧
    getWm [("acme/widgets", 40)] "acme/widgets" < 41 ∧
    ¬((100 : Int) < TickInput.cutoff ⟨true, ["acme/widgets"], 3600, 1,
        fun r => if r = "acme/widgets" then
          some [⟨42, true, 100, "alice"⟩, ⟨41, true, 100, "bob"⟩]
        else none⟩) ∧
    (get_recently_merged_prs
      ⟨true, ["acme/widgets"], 3600, 1,
        fun r => if r = "acme/widgets" then
          some [⟨42, true, 100, "alice"⟩, ⟨41, true, 100, "bob"⟩]
        else none⟩
      [("acme/widgets", 40)]).1 =
      [⟨"acme/widgets", 42, "alice", 100⟩] ∧
    getWm (get_recently_merged_prs
      ⟨true, ["acme/widgets"], 3600, 1,
        fun r => if r = "acme/widgets" then
          some [⟨42, true, 100, "alice"⟩, ⟨41, true, 100, "bob"⟩]
        else none⟩
      [("acme/widgets", 40)]).2 "acme/widgets" = 42 := by
  refine ⟨by decide, by decide, by decide, by decide, by decide⟩

/-- C3 (amended): within a single poll tick for one repository, every emitted
event corresponds to a scanned PR of that tick that is merged, within the
lookback window, and strictly above the repository's start-of-tick watermark;
the emitted PR numbers are strictly increasing in scan order (so a qualifying
lower-numbered PR listed after a higher-numbered one is skipped, not emitted);
after the tick the repository's watermark equals the last — hence, by the
strict increase, the maximum — PR number emitted that tick, or its prior value
if nothing was emitted; and watermarks of other repositories are unchanged. -/
theorem C3_amended_incremental_scan_characterisation (repo : String)
    (cutoff : Int) (res : Option (List PRInfo)) (st : WmMap) :
    (∀ ev ∈ (pollRepo repo cutoff res st).1,
      ev.repo_name = repo ∧ getWm st repo < ev.pr_number ∧
      ∃ pr ∈ (res.getD []).take 10,
        pr.number = ev.pr_number ∧ pr.merged = true ∧
        ¬(pr.merged_at < cutoff)) ∧
    ((pollRepo repo cutoff res st).1).Pairwise
      (fun a b => a.pr_number < b.pr_number) ∧
    getWm (pollRepo repo cutoff res st).2 repo =
      (((pollRepo repo cutoff res st).1.map
          (fun ev => ev.pr_number)).getLast?).getD (getWm st repo) ∧
    (∀ r, r ≠ repo → getWm (pollRepo repo cutoff res st).2 r = getWm st r) := by
  cases res with
  | none =>
    refine ⟨fun ev h => by simp [pollRepo] at h, ?_, ?_, fun r _ => rfl⟩
    · simp [pollRepo]
    · simp [pollRepo]
  | some prs =>
    refine ⟨fun ev h => ?_, scan_pairwise repo cutoff (prs.take 10) st,
      scan_last repo cutoff (prs.take 10) st,
      fun r hr => scan_frame repo cutoff (prs.take 10) st r hr⟩
    obtain ⟨h1, h2, p, hp, hn, _, _, hm, hc⟩ :=
      scan_sound repo cutoff (prs.take 10) st ev h
    exact ⟨h1, h2, p, hp, hn, hm, hc⟩

/-- Witness for the amended C3 at a concrete input: in the counterexample
tick, the emitted event for PR #42 is indeed for the scanned repository, above
the start watermark 40, and backed by a scanned, merged, in-window PR. -/
theorem C3_amended_witness :
    (⟨"acme/widgets", 42, "alice", 100⟩ : MergedPREvent).repo_name =
      "acme/widgets" ∧
    getWm [("acme/widgets", 40)] "acme/widgets" <
      (⟨"acme/widgets", 42, "alice", 100⟩ : MergedPREvent).pr_number ∧
    ∃ pr ∈ ((some [(⟨42, true, 100, "alice"⟩ : PRInfo),
        ⟨41, true, 100, "bob"⟩]).getD []).take 10,
      pr.number =
          (⟨"acme/widgets", 42, "alice", 100⟩ : MergedPREvent).pr_number ∧
        pr.merged = true ∧ ¬(pr.merged_at < (0 : Int)) :=
  (C3_amended_incremental_scan_characterisation "acme/widgets" 0
      (some [⟨42, true, 100, "alice"⟩, ⟨41, true, 100, "bob"⟩])
      [("acme/widgets", 40)]).1
    ⟨"acme/widgets", 42, "alice", 100⟩ (by decide)

/-- C4 counterexample: a PR whose merge timestamp equals the cutoff instant
`now - lookback` exactly (here `merged_at = 0` with `now = 3600`,
`hours = 1`) IS emitted by the code — `if pr.merged_at < cutoff_time` skips
only strictly older merges — refuting the claim that a PR merged exactly at
the cutoff is excluded. -/
theorem C4_counterexample_boundary_included :
    ((⟨"acme/w", 5, "ann", 0⟩ : MergedPREvent) ∈
      (get_recently_merged_prs
        ⟨true, ["acme/w"], 3600, 1, fun _ => some [⟨5, true, 0, "ann"⟩]⟩
        emptyWm).1) ∧
    (0 : Int) = (3600 : Int) - 1 * 3600 := by
  refine ⟨by decide, by decide⟩

/-- C4 (amended): in every poll tick, a PR whose merge timestamp is strictly
before `now - lookback_duration` is never emitted; the boundary is inclusive —
every emitted event's merge timestamp is at least the cutoff, and a PR merged
exactly at the cutoff instant is eligible for emission. -/
theorem C4_amended_no_event_strictly_before_cutoff (t : TickInput)
    (st : WmMap) (ev : MergedPREvent)
    (h : ev ∈ (get_recently_merged_prs t st).1) :
    t.now - t.hours * 3600 ≤ ev.merged_at := by
  unfold get_recently_merged_prs at h
  split at h
  · simp at h
  · have := pollRepos_time_sound t.cutoff t.fetch t.repos st ev h
    unfold TickInput.cutoff at this
    omega

/-- Witness for the amended C4 at a concrete input: the boundary event of the
counterexample tick is emitted and its timestamp is (exactly) at the cutoff. -/
theorem C4_amended_witness :
    (3600 : Int) - 1 * 3600 ≤
      (⟨"acme/w", 5, "ann", 0⟩ : MergedPREvent).merged_at :=
  C4_amended_no_event_strictly_before_cutoff
    ⟨true, ["acme/w"], 3600, 1, fun _ => some [⟨5, true, 0, "ann"⟩]⟩
    emptyWm ⟨"acme/w", 5, "ann", 0⟩ (by decide)

@[simp] theorem cacheLookup_insert_same {V : Type} (c : Cache V) (k : String)
    (v : V) (ts : Int) : cacheLookup (cacheInsert c k v ts) k = some (v, ts) := by
  simp [cacheLookup, cacheInsert, List.lookup]

theorem get_cached_hit {V : Type} (ttl now : Int) (k : String) (f : Option V)
    (c : Cache V) (v : V) (ts : Int) (hl : cacheLookup c k = some (v, ts))
    (hfresh : now - ts < ttl) :
    get_cached ttl now k f c = ⟨some v, c, false⟩ := by
  unfold get_cached
  rw [hl]
  simp [hfresh]

theorem get_cached_stale {V : Type} (ttl now : Int) (k : String) (f : Option V)
    (c : Cache V) (v : V) (ts : Int) (hl : cacheLookup c k = some (v, ts))
    (hfresh : ¬(now - ts < ttl)) :
    get_cached ttl now k f c =
      match f with
      | some d => ⟨some d, cacheInsert c k d now, true⟩
      | none => ⟨none, c, true⟩ := by
  unfold get_cached
  rw [hl]
  simp [hfresh]

theorem get_cached_miss {V : Type} (ttl now : Int) (k : String) (f : Option V)
    (c : Cache V) (hl : cacheLookup c k = none) :
    get_cached ttl now k f c =
      match f with
      | some d => ⟨some d, cacheInsert c k d now, true⟩
      | none => ⟨none, c, true⟩ := by
  unfold get_cached
  rw [hl]

/-- C5 counterexample: two `_get_cached` calls for the same key at the same
instant (trivially within `ttl`), both with a failing fetch, invoke the fetch
function twice — a failed fetch stores nothing, so the second call misses
again; this refutes the unconditional "at most once within ttl" conjunct of
the claim. -/
theorem C5_counterexample_failed_fetch_refetches :
    (get_cached (V := Nat) 300 0 "projects" none []).fetched = true ∧
    (get_cached (V := Nat) 300 0 "projects" none
      (get_cached (V := Nat) 300 0 "projects" none []).cache).fetched = true := by
  refine ⟨by decide, by decide⟩

/-- C5 (amended): a `_get_cached` call skips the fetch function iff an entry
for the key exists with `now - fetched_at < ttl`, in which case it returns the
stored value and leaves the cache unchanged; an existing entry at or past its
ttl does not suppress the fetch (stale entries are never served); two calls
with the same key within `ttl` of each other invoke the fetch at most once
provided the first call's fetch function would succeed (after a failed fetch
nothing is stored, so the next call fetches again); and a call whose fetch
function fails leaves the cache — including any stale entry — unchanged, and
returns null whenever the fetch was actually invoked. -/
theorem C5_amended_ttl_cache (V : Type) (ttl now now₁ now₂ : Int) (k : String)
    (f f₁ f₂ : Option V) (c : Cache V) :
    ((get_cached ttl now k f c).fetched = false ↔
      ∃ v ts, cacheLookup c k = some (v, ts) ∧ now - ts < ttl) ∧
    (∀ v ts, cacheLookup c k = some (v, ts) → now - ts < ttl →
      get_cached ttl now k f c = ⟨some v, c, false⟩) ∧
    (∀ v ts, cacheLookup c k = some (v, ts) → ¬(now - ts < ttl) →
      (get_cached ttl now k f c).fetched = true) ∧
    (∀ d, f₁ = some d → now₂ - now₁ < ttl →
      (get_cached ttl now₁ k f₁ c).fetched.toNat +
        (get_cached ttl now₂ k f₂
          (get_cached ttl now₁ k f₁ c).cache).fetched.toNat ≤ 1) ∧
    (f = none → (get_cached ttl now k f c).cache = c ∧
      ((get_cached ttl now k f c).fetched = true →
        (get_cached ttl now k f c).ret = none)) := by
  refine ⟨?_, ?_, ?_, ?_, ?_⟩
  · cases hl : cacheLookup c k with
    | none =>
      rw [get_cached_miss ttl now k f c hl]
      constructor
      · intro hfetch
        cases f <;> simp at hfetch
      · rintro ⟨v', ts', hl', _⟩
        simp at hl'
    | some p =>
      obtain ⟨v, ts⟩ := p
      by_cases hfresh : now - ts < ttl
      · rw [get_cached_hit ttl now k f c v ts hl hfresh]
        exact ⟨fun _ => ⟨v, ts, rfl, hfresh⟩, fun _ => rfl⟩
      · rw [get_cached_stale ttl now k f c v ts hl hfresh]
        constructor
        · intro hfetch
          cases f <;> simp at hfetch
        · rintro ⟨v', ts', hl', hfresh'⟩
          simp only [Option.some.injEq, Prod.mk.injEq] at hl'
          obtain ⟨_, hts⟩ := hl'
          subst hts
          exact absurd hfresh' hfresh
  · intro v ts hl hfresh
    exact get_cached_hit ttl now k f c v ts hl hfresh
  · intro v ts hl hfresh
    rw [get_cached_stale ttl now k f c v ts hl hfresh]
    cases f <;> rfl
  · intro d hf₁ hwin
    subst hf₁
    cases hl : cacheLookup c k with
    | none =>
      rw [get_cached_miss ttl now₁ k (some d) c hl]
      rw [get_cached_hit ttl now₂ k f₂ (cacheInsert c k d now₁) d now₁
        (cacheLookup_insert_same c k d now₁) hwin]
      simp
    | some p =>
      obtain ⟨v, ts⟩ := p
      by_cases hfresh : now₁ - ts < ttl
      · rw [get_cached_hit ttl now₁ k (some d) c v ts hl hfresh]
        have : ((get_cached ttl now₂ k f₂ c).fetched).toNat ≤ 1 := by
          cases (get_cached ttl now₂ k f₂ c).fetched <;> simp
        simpa using this
      · rw [get_cached_stale ttl now₁ k (some d) c v ts hl hfresh]
        rw [show (match some d with
            | some d => (⟨some d, cacheInsert c k d now₁, true⟩ : CacheResult V)
            | none => ⟨none, c, true⟩) =
          (⟨some d, cacheInsert c k d now₁, true⟩ : CacheResult V) from rfl]
        rw [get_cached_hit ttl now₂ k f₂ (cacheInsert c k d now₁) d now₁
          (cacheLookup_insert_same c k d now₁) hwin]
        simp
  · intro hf
    subst hf
    cases hl : cacheLookup c k with
    | none =>
      rw [get_cached_miss ttl now k none c hl]
      exact ⟨rfl, fun _ => rfl⟩
    | some p =>
      obtain ⟨v, ts⟩ := p
      by_cases hfresh : now - ts < ttl
      · rw [get_cached_hit ttl now k none c v ts hl hfresh]
        exact ⟨rfl, fun h => by simp at h⟩
      · rw [get_cached_stale ttl now k none c v ts hl hfresh]
        exact ⟨rfl, fun _ => rfl⟩

/-- Witness for the amended C5 at a concrete input: a successful fetch of
value 7 at time 0 followed by a second call at time 100 (ttl 300) invokes the
fetch at most once, and a failing call on the empty cache returns null and
leaves the cache empty. -/
theorem C5_amended_witness :
    ((get_cached (V := Nat) 300 0 "projects" (some 7) []).fetched.toNat +
      (get_cached (V := Nat) 300 100 "projects" (some 8)
        (get_cached (V := Nat) 300 0 "projects" (some 7) []).cache).fetched.toNat
      ≤ 1) ∧
    (get_cached (V := Nat) 300 0 "tasks" none []).cache = [] ∧
    (get_cached (V := Nat) 300 0 "tasks" none []).ret = none :=
  ⟨(C5_amended_ttl_cache Nat 300 0 0 100 "projects" (some 7) (some 7) (some 8)
      []).2.2.2.1 7 rfl (by decide),
   ((C5_amended_ttl_cache Nat 300 0 0 100 "tasks" none none none []).2.2.2.2
      rfl).1,
   ((C5_amended_ttl_cache Nat 300 0 0 100 "tasks" none none none []).2.2.2.2
      rfl).2 (by decide)⟩

theorem lastN_of_length_le {α : Type} (n : Nat) (l : List α)
    (h : l.length ≤ n) : lastN n l = l := by
  unfold lastN
  rw [show l.length - n = 0 by omega, List.drop_zero]

theorem lastN_length_le {α : Type} (n : Nat) (l : List α) :
    (lastN n l).length ≤ n := by
  unfold lastN
  rw [List.length_drop]
  omega

theorem lastN_append_singleton {α : Type} (n : Nat) (hn : 1 ≤ n) (l : List α)
    (x : α) : lastN n (lastN n l ++ [x]) = lastN n (l ++ [x]) := by
  by_cases h : l.length ≤ n
  · rw [lastN_of_length_le n l h]
  · unfold lastN
    rw [List.length_append, List.length_append, List.length_drop]
    simp only [List.length_singleton]
    rw [show l.length - (l.length - n) + 1 - n = 1 by omega]
    rw [show l.length + 1 - n = (l.length - n) + 1 by omega]
    rw [List.drop_append_of_le_length (by rw [List.length_drop]; omega)]
    rw [List.drop_append_of_le_length (by omega)]
    rw [List.drop_drop]

theorem trim_eq_lastN {α : Type} (n : Nat) (hn : 1 ≤ n) (l : List α) :
    (if l.length > n then pySliceLast n l else l) = lastN n l := by
  by_cases h : l.length > n
  · rw [if_pos h]
    unfold pySliceLast
    rw [if_neg (by omega)]
    rfl
  · rw [if_neg h]
    rw [lastN_of_length_le n l (by omega)]

@[simp] theorem convLookup_insert_same (st : ConvStore) (uid : String)
    (cr : ConversationRecord) : convLookup (convInsert st uid cr) uid = some cr := by
  simp [convLookup, convInsert, List.lookup]

@[simp] theorem convLookup_insert_other (st : ConvStore) (uid u : String)
    (cr : ConversationRecord) (h : u ≠ uid) :
    convLookup (convInsert st uid cr) u = convLookup st u := by
  simp [convLookup, convInsert, List.lookup, beq_eq_false_iff_ne.mpr h]

theorem add_message_curMsgs (m : Nat) (st : ConvStore) (uid r c ts : String) :
    curMsgs (add_message m st uid r c ts) uid =
      (if (curMsgs st uid ++ [(⟨r, c, ts⟩ : Message)]).length > m * 2
       then pySliceLast (m * 2) (curMsgs st uid ++ [(⟨r, c, ts⟩ : Message)])
       else curMsgs st uid ++ [(⟨r, c, ts⟩ : Message)]) := by
  unfold add_message
  cases hl : convLookup st uid with
  | none =>
    simp only [hl, Option.isSome_none, Bool.false_eq_true, if_false,
      init_user_conversation, convLookup_insert_same, Option.getD_some]
    simp [curMsgs, hl]
  | some cr =>
    simp only [hl, Option.isSome_some, if_true, Option.getD_some]
    simp [curMsgs, hl]

theorem add_message_curMsgs_other (m : Nat) (st : ConvStore)
    (uid u r c ts : String) (h : u ≠ uid) :
    curMsgs (add_message m st uid r c ts) u = curMsgs st u := by
  unfold add_message
  cases hl : convLookup st uid with
  | none =>
    simp only [hl, Option.isSome_none, Bool.false_eq_true, if_false,
      init_user_conversation]
    simp [curMsgs, convLookup_insert_other _ _ _ _ h]
  | some cr =>
    simp only [hl, Option.isSome_some, if_true]
    simp [curMsgs, convLookup_insert_other _ _ _ _ h]

theorem add_message_length_le (m : Nat) (hm : 1 ≤ m) (st : ConvStore)
    (uid r c ts : String) :
    (curMsgs (add_message m st uid r c ts) uid).length ≤ m * 2 := by
  rw [add_message_curMsgs]
  by_cases h : (curMsgs st uid ++ [(⟨r, c, ts⟩ : Message)]).length > m * 2
  · rw [if_pos h]
    unfold pySliceLast
    rw [if_neg (by omega), List.length_drop]
    omega
  · rw [if_neg h]
    omega

theorem runAdds_bounded (m : Nat) (hm : 1 ≤ m) (calls : List AddCall) :
    ∀ (st : ConvStore), (∀ u, (curMsgs st u).length ≤ m * 2) →
      ∀ u, (curMsgs (runAdds m st calls) u).length ≤ m * 2 := by
  induction calls with
  | nil => intro st h u; exact h u
  | cons cl cs ih =>
    intro st h u
    refine ih _ (fun u' => ?_) u
    by_cases hu : u' = cl.user_id
    · subst hu
      exact add_message_length_le m hm st cl.user_id cl.role cl.content cl.ts
    · rw [add_message_curMsgs_other m st cl.user_id u' _ _ _ hu]
      exact h u'

theorem runAdds_single_user (m : Nat) (hm : 1 ≤ m) (uid : String)
    (calls : List AddCall) (hu : ∀ cl ∈ calls, cl.user_id = uid) :
    ∀ (st : ConvStore) (A : List Message), curMsgs st uid = lastN (m * 2) A →
      curMsgs (runAdds m st calls) uid =
        lastN (m * 2) (A ++ calls.map mkMsg) := by
  induction calls with
  | nil => intro st A h; simpa [runAdds] using h
  | cons cl cs ih =>
    intro st A h
    have hcl : cl.user_id = uid := hu cl (List.mem_cons_self _ _)
    simp only [runAdds, hcl]
    have hstep :
        curMsgs (add_message m st uid cl.role cl.content cl.ts) uid =
          lastN (m * 2) (A ++ [mkMsg cl]) := by
      rw [add_message_curMsgs, h,
        trim_eq_lastN (m * 2) (by omega)
          (lastN (m * 2) A ++ [(⟨cl.role, cl.content, cl.ts⟩ : Message)])]
      exact lastN_append_singleton (m * 2) (by omega) A (mkMsg cl)
    have := ih (fun c hc => hu c (List.mem_cons_of_mem _ hc))
      (add_message m st uid cl.role cl.content cl.ts) (A ++ [mkMsg cl]) hstep
    rw [this, List.append_assoc]
    rfl

/-- C6 counterexample: with `max_history = 0` the trim slice is
`messages[-0:]`, which in Python is the whole list, so nothing is ever
trimmed: after one `add_message` the user's list has length 1, exceeding
`2 * max_history = 0` — refuting the claim for the degenerate configuration. -/
theorem C6_counterexample_zero_max_history :
    (curMsgs (runAdds 0 emptyConv [⟨"u1", "user", "hi", "t0"⟩]) "u1").length = 1 ∧
    ¬((curMsgs (runAdds 0 emptyConv [⟨"u1", "user", "hi", "t0"⟩]) "u1").length
        ≤ 0 * 2) := by
  refine ⟨by decide, by decide⟩

/-- C6 (amended): for every manager with `max_history ≥ 1`, every user and
every sequence of `add_message` calls from the empty store, the user's
message list has length at most `2 * max_history` after every mutation; and
after `2 * max_history + 5` appends to one user, exactly the
`2 * max_history` most recently appended messages remain, in oldest-first
order (the first five appended messages are dropped). -/
theorem C6_amended_bounded_history (m : Nat) (hm : 1 ≤ m)
    (calls : List AddCall) (uid : String) :
    (∀ u, (curMsgs (runAdds m emptyConv calls) u).length ≤ m * 2) ∧
    ((∀ cl ∈ calls, cl.user_id = uid) → calls.length = m * 2 + 5 →
      curMsgs (runAdds m emptyConv calls) uid = (calls.map mkMsg).drop 5) := by
  constructor
  · exact runAdds_bounded m hm calls emptyConv
      (fun u => by simp [curMsgs, emptyConv, convLookup, List.lookup])
  · intro hu hlen
    have h0 : curMsgs emptyConv uid = lastN (m * 2) ([] : List Message) := by
      simp [curMsgs, emptyConv, convLookup, List.lookup, lastN]
    have := runAdds_single_user m hm uid calls hu emptyConv [] h0
    rw [List.nil_append] at this
    rw [this]
    unfold lastN
    rw [List.length_map, hlen]
    congr 1
    omega

/-- Witness for the amended C6 at a concrete input: `max_history = 1`, seven
appends (`2*1+5`) to user "u1" leave exactly the last two messages, in
order, and every user's list is within the bound. -/
theorem C6_amended_witness :
    (∀ u, (curMsgs (runAdds 1 emptyConv
      [⟨"u1", "user", "m1", "t1"⟩, ⟨"u1", "assistant", "m2", "t2"⟩,
       ⟨"u1", "user", "m3", "t3"⟩, ⟨"u1", "assistant", "m4", "t4"⟩,
       ⟨"u1", "user", "m5", "t5"⟩, ⟨"u1", "assistant", "m6", "t6"⟩,
       ⟨"u1", "user", "m7", "t7"⟩]) u).length ≤ 1 * 2) ∧
    curMsgs (runAdds 1 emptyConv
      [⟨"u1", "user", "m1", "t1"⟩, ⟨"u1", "assistant", "m2", "t2"⟩,
       ⟨"u1", "user", "m3", "t3"⟩, ⟨"u1", "assistant", "m4", "t4"⟩,
       ⟨"u1", "user", "m5", "t5"⟩, ⟨"u1", "assistant", "m6", "t6"⟩,
       ⟨"u1", "user", "m7", "t7"⟩]) "u1" =
      ([⟨"u1", "user", "m1", "t1"⟩, ⟨"u1", "assistant", "m2", "t2"⟩,
        ⟨"u1", "user", "m3", "t3"⟩, ⟨"u1", "assistant", "m4", "t4"⟩,
        ⟨"u1", "user", "m5", "t5"⟩, ⟨"u1", "assistant", "m6", "t6"⟩,
        ⟨"u1", "user", "m7", "t7"⟩].map mkMsg).drop 5 :=
  ⟨(C6_amended_bounded_history 1 (by decide)
      [⟨"u1", "user", "m1", "t1"⟩, ⟨"u1", "assistant", "m2", "t2"⟩,
       ⟨"u1", "user", "m3", "t3"⟩, ⟨"u1", "assistant", "m4", "t4"⟩,
       ⟨"u1", "user", "m5", "t5"⟩, ⟨"u1", "assistant", "m6", "t6"⟩,
       ⟨"u1", "user", "m7", "t7"⟩] "u1").1,
   (C6_amended_bounded_history 1 (by decide)
      [⟨"u1", "user", "m1", "t1"⟩, ⟨"u1", "assistant", "m2", "t2"⟩,
       ⟨"u1", "user", "m3", "t3"⟩, ⟨"u1", "assistant", "m4", "t4"⟩,
       ⟨"u1", "user", "m5", "t5"⟩, ⟨"u1", "assistant", "m6", "t6"⟩,
       ⟨"u1", "user", "m7", "t7"⟩] "u1").2 (by decide) (by decide)⟩

theorem digitVal_digitChar (d : Nat) (h : d < 10) :
    digitVal (digitChar d) = d := by
  interval_cases d <;> decide

theorem isAsciiDigit_digitChar (d : Nat) (h : d < 10) :
    isAsciiDigit (digitChar d) = true := by
  interval_cases d <;> decide

theorem digit_cases {c : Char} (h : isAsciiDigit c = true) :
    c = '0' ∨ c = '1' ∨ c = '2' ∨ c = '3' ∨ c = '4' ∨
    c = '5' ∨ c = '6' ∨ c = '7' ∨ c = '8' ∨ c = '9' := by
  simp only [isAsciiDigit, Bool.or_eq_true, beq_iff_eq] at h
  tauto

theorem digit_not_whitespace {c : Char} (h : isAsciiDigit c = true) :
    c.isWhitespace = false := by
  rcases digit_cases h with h|h|h|h|h|h|h|h|h|h <;> subst h <;> decide

theorem digit_ne_plus {c : Char} (h : isAsciiDigit c = true) : c ≠ '+' := by
  rcases digit_cases h with h|h|h|h|h|h|h|h|h|h <;> subst h <;> decide

theorem digit_ne_minus {c : Char} (h : isAsciiDigit c = true) : c ≠ '-' := by
  rcases digit_cases h with h|h|h|h|h|h|h|h|h|h <;> subst h <;> decide

theorem digit_ne_underscore {c : Char} (h : isAsciiDigit c = true) :
    c ≠ '_' := by
  rcases digit_cases h with h|h|h|h|h|h|h|h|h|h <;> subst h <;> decide

theorem natDecimalAux_digits : ∀ (fuel n : Nat), ∀ c ∈ natDecimalAux fuel n,
    isAsciiDigit c = true := by
  intro fuel
  induction fuel with
  | zero => intro n c hc; simp [natDecimalAux] at hc
  | succ f ih =>
    intro n c hc
    by_cases hn : n = 0
    · rw [natDecimalAux, if_pos hn] at hc
      simp at hc
    · rw [natDecimalAux, if_neg hn] at hc
      rcases List.mem_append.mp hc with h | h
      · exact ih (n / 10) c h
      · rw [List.mem_singleton] at h
        subst h
        exact isAsciiDigit_digitChar (n % 10) (Nat.mod_lt n (by norm_num))

theorem natDecimalAux_foldl (fuel : Nat) :
    ∀ (n acc : Nat), n ≤ fuel →
      (natDecimalAux fuel n).foldl (fun a c => a * 10 + digitVal c) acc =
        acc * 10 ^ (natDecimalAux fuel n).length + n := by
  induction fuel with
  | zero =>
    intro n acc h
    have hn : n = 0 := by omega
    subst hn
    simp [natDecimalAux]
  | succ f ih =>
    intro n acc h
    by_cases hn : n = 0
    · subst hn; simp [natDecimalAux]
    · rw [natDecimalAux, if_neg hn, List.foldl_append]
      have hdiv : n / 10 ≤ f := by
        have : n / 10 < n :=
          Nat.div_lt_self (Nat.pos_of_ne_zero hn) (by norm_num : (1 : Nat) < 10)
        omega
      rw [ih (n / 10) acc hdiv]
      simp only [List.foldl_cons, List.foldl_nil, List.length_append,
        List.length_singleton]
      rw [digitVal_digitChar (n % 10) (Nat.mod_lt n (by norm_num)), pow_succ]
      rw [Nat.add_mul, ← mul_assoc]
      rw [Nat.add_assoc]
      congr 1
      omega

theorem natDecimal_ne_nil (n : Nat) : natDecimal n ≠ [] := by
  unfold natDecimal
  by_cases hn : n = 0
  · rw [if_pos hn]; simp
  · rw [if_neg hn]
    intro hl
    have := natDecimalAux_foldl n n 0 le_rfl
    rw [hl] at this
    simp at this
    exact hn this.symm

theorem natDecimal_digits (n : Nat) : ∀ c ∈ natDecimal n,
    isAsciiDigit c = true := by
  intro c hc
  unfold natDecimal at hc
  by_cases hn : n = 0
  · rw [if_pos hn] at hc
    rw [List.mem_singleton] at hc
    subst hc
    decide
  · rw [if_neg hn] at hc
    exact natDecimalAux_digits n n c hc

theorem parseAcc_all_digits : ∀ (l : List Char) (acc : Nat),
    (∀ c ∈ l, isAsciiDigit c = true) →
    parseAcc l acc = some (l.foldl (fun a c => a * 10 + digitVal c) acc) := by
  intro l
  induction l with
  | nil => intro acc _; rfl
  | cons c rest ih =>
    intro acc hall
    have hc : isAsciiDigit c = true := hall c (List.mem_cons_self _ _)
    rw [parseAcc.eq_def]
    simp only [if_neg (digit_ne_underscore hc), if_pos hc]
    rw [List.foldl_cons]
    exact ih _ (fun x hx => hall x (List.mem_cons_of_mem _ hx))

theorem pyParseNatDigits_natDecimal (n : Nat) :
    pyParseNatDigits (natDecimal n) = some n := by
  cases hl : natDecimal n with
  | nil => exact absurd hl (natDecimal_ne_nil n)
  | cons c rest =>
    have hall : ∀ x ∈ natDecimal n, isAsciiDigit x = true := natDecimal_digits n
    rw [hl] at hall
    have hc := hall c (List.mem_cons_self _ _)
    simp only [pyParseNatDigits]
    rw [if_pos hc,
      parseAcc_all_digits rest (digitVal c)
        (fun x hx => hall x (List.mem_cons_of_mem _ hx))]
    have hfold :
        (natDecimal n).foldl (fun a c => a * 10 + digitVal c) 0 = n := by
      unfold natDecimal
      by_cases hn : n = 0
      · rw [if_pos hn]; subst hn; decide
      · rw [if_neg hn]
        have := natDecimalAux_foldl n n 0 le_rfl
        simpa using this
    rw [hl, List.foldl_cons] at hfold
    simp only [Nat.zero_mul, Nat.zero_add] at hfold
    rw [hfold]

theorem dropWhile_eq_self_of_head {α : Type} (p : α → Bool) (l : List α)
    (h : ∀ c, l.head? = some c → p c = false) : l.dropWhile p = l := by
  cases l with
  | nil => rfl
  | cons c rest =>
    rw [List.dropWhile_cons]
    simp [h c rfl]

theorem mem_of_head?_eq {α : Type} {l : List α} {c : α}
    (h : l.head? = some c) : c ∈ l := by
  cases l with
  | nil => cases h
  | cons a t =>
    rw [List.head?_cons, Option.some.injEq] at h
    subst h
    exact List.mem_cons_self _ _

theorem mem_of_getLast?_eq {α : Type} : ∀ {l : List α} {c : α},
    l.getLast? = some c → c ∈ l := by
  intro l
  induction l with
  | nil => intro c h; cases h
  | cons a t ih =>
    intro c h
    cases t with
    | nil =>
      simp only [List.getLast?_singleton, Option.some.injEq] at h
      subst h
      exact List.mem_cons_self _ _
    | cons b t' =>
      rw [List.getLast?_cons_cons] at h
      exact List.mem_cons_of_mem _ (ih h)

theorem pyStrip_eq_self (l : List Char)
    (hhead : ∀ c, l.head? = some c → c.isWhitespace = false)
    (hlast : ∀ c, l.getLast? = some c → c.isWhitespace = false) :
    pyStrip l = l := by
  unfold pyStrip
  rw [dropWhile_eq_self_of_head _ l hhead]
  rw [dropWhile_eq_self_of_head _ l.reverse
    (fun c hc => hlast c (by rwa [List.head?_reverse] at hc))]
  exact List.reverse_reverse l

theorem pyStrip_natDecimal (n : Nat) : pyStrip (natDecimal n) = natDecimal n := by
  refine pyStrip_eq_self (natDecimal n) (fun c hc => ?_) (fun c hc => ?_)
  · exact digit_not_whitespace (natDecimal_digits n c (mem_of_head?_eq hc))
  · exact digit_not_whitespace (natDecimal_digits n c (mem_of_getLast?_eq hc))

theorem pyStrip_neg_natDecimal (n : Nat) :
    pyStrip ('-' :: natDecimal n) = '-' :: natDecimal n := by
  refine pyStrip_eq_self _ (fun c hc => ?_) (fun c hc => ?_)
  · rw [List.head?_cons, Option.some.injEq] at hc
    subst hc
    decide
  · cases hl : natDecimal n with
    | nil => exact absurd hl (natDecimal_ne_nil n)
    | cons a t =>
      rw [hl, List.getLast?_cons_cons] at hc
      refine digit_not_whitespace (natDecimal_digits n c ?_)
      rw [hl]
      exact mem_of_getLast?_eq hc

theorem pyIntCore_digits (l : List Char) (hne : l ≠ [])
    (hall : ∀ c ∈ l, isAsciiDigit c = true) :
    pyIntCore l = (pyParseNatDigits l).map (fun n => (n : Int)) := by
  cases l with
  | nil => exact absurd rfl hne
  | cons c rest =>
    have hc := hall c (List.mem_cons_self _ _)
    rw [pyIntCore.eq_def]
    simp only [if_neg (digit_ne_plus hc), if_neg (digit_ne_minus hc)]

theorem pyInt_pyStr (d : Int) : pyInt (pyStr d) = some d := by
  unfold pyInt pyStr
  by_cases hd : d < 0
  · rw [if_pos hd]
    have htl : (String.mk ('-' :: natDecimal d.natAbs)).toList =
        '-' :: natDecimal d.natAbs := rfl
    rw [htl, pyStrip_neg_natDecimal]
    have hcore : pyIntCore ('-' :: natDecimal d.natAbs) =
        (pyParseNatDigits (natDecimal d.natAbs)).map (fun n => -(n : Int)) := by
      rw [pyIntCore.eq_def]
      simp only [if_neg (by decide : ¬('-' : Char) = '+'), if_pos rfl,
        if_true]
    rw [hcore, pyParseNatDigits_natDecimal]
    show some (-((d.natAbs : Nat) : Int)) = some d
    congr 1
    omega
  · rw [if_neg hd]
    have htl : (String.mk (natDecimal d.toNat)).toList = natDecimal d.toNat := rfl
    rw [htl, pyStrip_natDecimal]
    rw [pyIntCore_digits (natDecimal d.toNat) (natDecimal_ne_nil _)
      (natDecimal_digits _)]
    rw [pyParseNatDigits_natDecimal]
    show some (((d.toNat : Nat) : Int)) = some d
    congr 1
    omega

@[simp] theorem mapLookup_add_same (ms : Mappings) (u : String) (d : Int) :
    mapLookup (add_mapping ms u d) u = some (pyStr d) := by
  simp [mapLookup, add_mapping, List.lookup]

@[simp] theorem mapLookup_add_other (ms : Mappings) (u u' : String) (d : Int)
    (h : u' ≠ u) : mapLookup (add_mapping ms u d) u' = mapLookup ms u' := by
  simp [mapLookup, add_mapping, List.lookup, beq_eq_false_iff_ne.mpr h]

theorem pyStr_ne_empty (d : Int) : pyStr d ≠ "" := by
  unfold pyStr
  by_cases hd : d < 0
  · rw [if_pos hd]
    intro h
    have := congrArg String.data h
    simp at this
  · rw [if_neg hd]
    intro h
    have := congrArg String.data h
    simp at this
    exact natDecimal_ne_nil _ this

theorem get_discord_id_eq_some (ms : Mappings) (u s : String)
    (hl : mapLookup ms u = some s) :
    get_discord_id ms u = if s ≠ "" then pyInt s else none := by
  unfold get_discord_id
  rw [hl]

theorem get_discord_id_eq_none (ms : Mappings) (u : String)
    (hl : mapLookup ms u = none) : get_discord_id ms u = none := by
  unfold get_discord_id
  rw [hl]

theorem lookup_filter_none (u : String) (p : String × String → Bool) :
    ∀ (ms : List (String × String)), List.lookup u ms = none →
      List.lookup u (List.filter p ms) = none := by
  intro ms
  induction ms with
  | nil => intro _; rfl
  | cons kv rest ih =>
    intro h
    obtain ⟨k, v⟩ := kv
    by_cases hk : (u == k) = true
    · exfalso
      simp [List.lookup, hk] at h
    · have hk' : (u == k) = false := by
        cases hub : u == k
        · rfl
        · exact absurd hub hk
      simp only [List.lookup, hk'] at h
      rw [List.filter_cons]
      by_cases hp : p (k, v) = true
      · rw [if_pos hp]
        simp only [List.lookup, hk']
        exact ih h
      · rw [if_neg hp]
        exact ih h

theorem mapLookup_remove_self (u : String) :
    ∀ (ms : Mappings), mapLookup (remove_mapping ms u) u = none := by
  intro ms
  induction ms with
  | nil => rfl
  | cons kv rest ih =>
    obtain ⟨k, v⟩ := kv
    unfold remove_mapping at ih ⊢
    rw [List.filter_cons]
    by_cases hk : (k != u) = true
    · rw [if_pos hk]
      have hne : (u == k) = false := by
        rw [bne_iff_ne] at hk
        exact beq_eq_false_iff_ne.mpr (Ne.symm hk)
      unfold mapLookup at ih ⊢
      simp only [List.lookup, hne]
      exact ih
    · rw [if_neg hk]
      exact ih

theorem runMapOps_no_add (u : String) :
    ∀ (ops : List MapOp) (ms : Mappings),
      (∀ d, MapOp.add u d ∉ ops) → mapLookup ms u = none →
      mapLookup (runMapOps ms ops) u = none := by
  intro ops
  induction ops with
  | nil => intro ms _ h; exact h
  | cons op rest ih =>
    intro ms hno h
    cases op with
    | add u' d =>
      have hu' : u ≠ u' := by
        intro he
        subst he
        exact hno d (List.mem_cons_self _ _)
      simp only [runMapOps]
      refine ih _ (fun d' hd => hno d' (List.mem_cons_of_mem _ hd)) ?_
      rw [mapLookup_add_other ms u' u d hu']
      exact h
    | remove u' =>
      simp only [runMapOps]
      refine ih _ (fun d' hd => hno d' (List.mem_cons_of_mem _ hd)) ?_
      exact lookup_filter_none u _ ms h

/-- C10: adding a mapping for username `u` and id `d` makes `get_discord_id u`
return `d` (round trip through `str`/`int`); lookups of other — including
differently-cased — usernames are unaffected; a username never added, or
removed since its last add (with no later add), resolves to `None`; and a
stored value that `int()` cannot parse yields `None` rather than an error. -/
theorem C10_user_mapping_round_trip :
    (∀ (ms : Mappings) (u : String) (d : Int),
      get_discord_id (add_mapping ms u d) u = some d) ∧
    (∀ (ms : Mappings) (u u' : String) (d : Int), u' ≠ u →
      get_discord_id (add_mapping ms u d) u' = get_discord_id ms u') ∧
    (∀ (ops : List MapOp) (u : String), (∀ d, MapOp.add u d ∉ ops) →
      get_discord_id (runMapOps emptyMappings ops) u = none) ∧
    (∀ (ms : Mappings) (ops : List MapOp) (u : String),
      (∀ d, MapOp.add u d ∉ ops) →
      get_discord_id (runMapOps (remove_mapping ms u) ops) u = none) ∧
    (∀ (ms : Mappings) (u s : String), mapLookup ms u = some s →
      pyInt s = none → get_discord_id ms u = none) := by
  refine ⟨?_, ?_, ?_, ?_, ?_⟩
  · intro ms u d
    rw [get_discord_id_eq_some _ _ _ (mapLookup_add_same ms u d),
      if_pos (pyStr_ne_empty d)]
    exact pyInt_pyStr d
  · intro ms u u' d h
    unfold get_discord_id
    rw [mapLookup_add_other ms u u' d h]
  · intro ops u hno
    exact get_discord_id_eq_none _ u (runMapOps_no_add u ops emptyMappings hno rfl)
  · intro ms ops u hno
    exact get_discord_id_eq_none _ u
      (runMapOps_no_add u ops (remove_mapping ms u) hno (mapLookup_remove_self u ms))
  · intro ms u s hl hp
    rw [get_discord_id_eq_some ms u s hl]
    by_cases hs : s = ""
    · rw [if_neg (by simpa using hs)]
    · rw [if_pos hs]
      exact hp

/-- Witness for C10 at concrete inputs: the round trip at ("alice", 100),
case-sensitivity at "Alice", removal of "bob" after its add, and the
unparsable stored value "xyz" for "carol". -/
theorem C10_witness :
    get_discord_id (add_mapping emptyMappings "alice" 100) "alice" =
      some 100 ∧
    get_discord_id (add_mapping emptyMappings "alice" 100) "Alice" =
      get_discord_id emptyMappings "Alice" ∧
    get_discord_id (runMapOps emptyMappings [MapOp.remove "zoe"]) "zoe" =
      none ∧
    get_discord_id
      (runMapOps (remove_mapping (add_mapping emptyMappings "bob" 7) "bob") [])
      "bob" = none ∧
    get_discord_id [("carol", "xyz")] "carol" = none :=
  ⟨C10_user_mapping_round_trip.1 emptyMappings "alice" 100,
   C10_user_mapping_round_trip.2.1 emptyMappings "alice" "Alice" 100
     (by decide),
   C10_user_mapping_round_trip.2.2.1 [MapOp.remove "zoe"] "zoe"
     (fun d hd => by simp at hd),
   C10_user_mapping_round_trip.2.2.2.1 (add_mapping emptyMappings "bob" 7) []
     "bob" (fun d hd => by simp at hd),
   C10_user_mapping_round_trip.2.2.2.2 [("carol", "xyz")] "carol" "xyz"
     (by decide) (by decide)⟩

/-- C9 counterexample: `get_context` on a user absent from the store does NOT
leave the store unchanged — it calls `_init_user_conversation` and stores a
fresh record for the user, so a read via `get_context` does initialise a
record, refuting the "no record is initialized on a read" part of the claim. -/
theorem C9_counterexample_get_context_initialises :
    (get_context emptyConv "u9" "t0").2 ≠ emptyConv ∧
    convLookup (get_context emptyConv "u9" "t0").2 "u9" =
      some ⟨[], defaultContext, "t0"⟩ := by
  refine ⟨by decide, by decide⟩

/-- C9 (amended): for a user absent from the store, `get_history` returns the
empty history (its source body is a pure read that never writes the store)
and `get_context` returns the all-unset default context — but `get_context`
lazily initialises on this read: the store afterwards holds a fresh record
`([], default context, now)` for the user, rather than being left
unchanged. -/
theorem C9_amended_reads_for_unknown_user (st : ConvStore) (uid ts : String)
    (h : convLookup st uid = none) :
    get_history st uid = [] ∧
    (get_context st uid ts).1 = defaultContext ∧
    (get_context st uid ts).2 = init_user_conversation st uid ts ∧
    convLookup (get_context st uid ts).2 uid = some ⟨[], defaultContext, ts⟩ := by
  unfold get_history get_context
  rw [h]
  exact ⟨rfl, rfl, rfl, by simp [init_user_conversation]⟩

/-- Witness for the amended C9 at a concrete input: the unknown user "u8" on
the empty store. -/
theorem C9_amended_witness :
    get_history emptyConv "u8" = [] ∧
    (get_context emptyConv "u8" "t1").1 = defaultContext ∧
    (get_context emptyConv "u8" "t1").2 =
      init_user_conversation emptyConv "u8" "t1" ∧
    convLookup (get_context emptyConv "u8" "t1").2 "u8" =
      some ⟨[], defaultContext, "t1"⟩ :=
  C9_amended_reads_for_unknown_user emptyConv "u8" "t1" rfl

/-- C7: for every merged-PR event whose full PR data was fetched, if
recipient resolution yields a falsy result (`None`, as strategies `author`
and `owner` produce for a username absent from the mapping table), the
primary DM delivery is never attempted and the fallback delivery is invoked
exactly once. -/
theorem C7_unresolved_skips_dm_hits_fallback_once (cfg : RecipientConfig)
    (ms : Mappings) (pr : PRData) (review : Option String)
    (outcome : DMOutcome) :
    (intTruthy (determine_review_recipient cfg ms pr) = false →
      (∀ uid, Step.dmSend uid ∉ processPR cfg ms (some pr) review outcome) ∧
      (processPR cfg ms (some pr) review outcome).count Step.fallbackSend
        = 1) ∧
    (cfg.mode = "author" → mapLookup ms pr.author = none →
      determine_review_recipient cfg ms pr = none) ∧
    (cfg.mode = "owner" → mapLookup ms pr.repo_owner = none →
      determine_review_recipient cfg ms pr = none) := by
  refine ⟨?_, ?_, ?_⟩
  · intro hres
    constructor
    · intro uid
      by_cases hrev : strTruthy review = true <;>
        simp [processPR, hres, hrev]
    · by_cases hrev : strTruthy review = true <;>
        simp [processPR, hres, hrev, List.count_cons, List.count_append]
  · intro hmode hnone
    unfold determine_review_recipient
    rw [if_neg (fun hc => by rw [hmode] at hc; exact absurd hc.1 (by decide))]
    rw [if_pos hmode]
    exact get_discord_id_eq_none ms pr.author hnone
  · intro hmode hnone
    unfold determine_review_recipient
    rw [if_neg (fun hc => by rw [hmode] at hc; exact absurd hc.1 (by decide))]
    rw [if_neg (by rw [hmode]; exact (by decide : ¬("owner" : String) = "author"))]
    rw [if_pos hmode]
    exact get_discord_id_eq_none ms pr.repo_owner hnone

/-- Witness for C7 at a concrete input: strategy `author`, author "bob"
absent from the mapping table — no DM step occurs and the fallback is
invoked exactly once. -/
theorem C7_witness :
    determine_review_recipient ⟨"author", none⟩ emptyMappings ⟨"bob", "acme"⟩
      = none ∧
    (∀ uid, Step.dmSend uid ∉
      processPR ⟨"author", none⟩ emptyMappings (some ⟨"bob", "acme"⟩)
        (some "LGTM") DMOutcome.success) ∧
    (processPR ⟨"author", none⟩ emptyMappings (some ⟨"bob", "acme"⟩)
        (some "LGTM") DMOutcome.success).count Step.fallbackSend = 1 :=
  ⟨(C7_unresolved_skips_dm_hits_fallback_once ⟨"author", none⟩ emptyMappings
      ⟨"bob", "acme"⟩ (some "LGTM") DMOutcome.success).2.1 rfl rfl,
   ((C7_unresolved_skips_dm_hits_fallback_once ⟨"author", none⟩ emptyMappings
      ⟨"bob", "acme"⟩ (some "LGTM") DMOutcome.success).1 (by decide)).1,
   ((C7_unresolved_skips_dm_hits_fallback_once ⟨"author", none⟩ emptyMappings
      ⟨"bob", "acme"⟩ (some "LGTM") DMOutcome.success).1 (by decide)).2⟩

/-- C8: for every merged-PR event whose full PR data was fetched, AI review
generation is the first pipeline step and recipient resolution happens
strictly after it; the security-analysis pass occurs iff the primary review
came back truthy (non-null, non-empty); delivery (a DM or the fallback) is
always attempted regardless of whether the review or the security scan
failed; and when review generation failed, the delivered embed carries the
"Review generation failed" placeholder instead of dropping the
notification. -/
theorem C8_review_pipeline_order_and_degradation (cfg : RecipientConfig)
    (ms : Mappings) (pr : PRData) (review : Option String)
    (outcome : DMOutcome) :
    ((processPR cfg ms (some pr) review outcome).head? = some Step.genReview) ∧
    Step.resolveRecipient ∈ (processPR cfg ms (some pr) review outcome).tail ∧
    (Step.secScan ∈ processPR cfg ms (some pr) review outcome ↔
      strTruthy review = true) ∧
    ((∃ uid, Step.dmSend uid ∈ processPR cfg ms (some pr) review outcome) ∨
      Step.fallbackSend ∈ processPR cfg ms (some pr) review outcome) ∧
    (strTruthy review = false →
      reviewFieldValue review = "⚠️ Review generation failed") := by
  refine ⟨rfl, ?_, ?_, ?_, ?_⟩
  · by_cases hrev : strTruthy review = true <;> simp [processPR, hrev]
  · by_cases hrev : strTruthy review = true <;>
      by_cases hres : intTruthy (determine_review_recipient cfg ms pr) = true <;>
      · simp [processPR, hrev, hres, dmBranch]
        try (cases outcome <;> simp)
  · by_cases hres : intTruthy (determine_review_recipient cfg ms pr) = true
    · refine Or.inl ⟨(determine_review_recipient cfg ms pr).getD 0, ?_⟩
      by_cases hrev : strTruthy review = true <;>
        simp [processPR, hrev, hres, dmBranch]
    · refine Or.inr ?_
      by_cases hrev : strTruthy review = true <;>
        simp [processPR, hrev, hres]
  · intro hrev
    unfold reviewFieldValue
    rw [if_neg (by rw [hrev]; exact Bool.false_ne_true)]

/-- Witness for C8 at a concrete input: a failed review (`none`) still leads
to a fallback delivery carrying the placeholder, with no security scan. -/
theorem C8_witness :
    ((processPR ⟨"author", none⟩ emptyMappings (some ⟨"bob", "acme"⟩) none
        DMOutcome.success).head? = some Step.genReview) ∧
    Step.resolveRecipient ∈
      (processPR ⟨"author", none⟩ emptyMappings (some ⟨"bob", "acme"⟩) none
        DMOutcome.success).tail ∧
    ¬(Step.secScan ∈ processPR ⟨"author", none⟩ emptyMappings
        (some ⟨"bob", "acme"⟩) none DMOutcome.success) ∧
    Step.fallbackSend ∈ processPR ⟨"author", none⟩ emptyMappings
        (some ⟨"bob", "acme"⟩) none DMOutcome.success ∧
    reviewFieldValue none = "⚠️ Review generation failed" := by
  have h := C8_review_pipeline_order_and_degradation ⟨"author", none⟩
    emptyMappings ⟨"bob", "acme"⟩ none DMOutcome.success
  refine ⟨h.1, h.2.1, ?_, ?_, h.2.2.2.2 rfl⟩
  · intro hmem
    exact absurd (h.2.2.1.mp hmem) (by decide)
  · rcases h.2.2.2.1 with ⟨uid, hmem⟩ | hmem
    · simp [processPR, determine_review_recipient, get_discord_id,
        emptyMappings, mapLookup, intTruthy] at hmem
    · exact hmem

end DiscordPM

